import Mathlib

/-!
Shallow embedding of `src/hll.rs` (the HyperLogLog cardinality estimator):
the `HyperLogLog` structure and its operations `new`, `add`, `count`,
`range_correction`, `merge` and `error`.  Machine `u64` values are modelled
as natural numbers below `2 ^ 64`; the `f64` arithmetic is modelled exactly,
over `ℚ` where the source only manipulates rational values (constructor,
alpha table) and over `ℝ` where logarithms and real powers appear (`count`,
`range_correction`, `error`).  The `DefaultHasher` stored by the source and
cloned for every `add` is modelled as a pure hash function `String → ℕ`.
-/

namespace HLLVerify

/-- TWO_POW_32 constant from the source: `(1_i64 << 32_i64) as f64`. -/
noncomputable def TWO_POW_32 : ℝ := 2 ^ (32 : ℕ)

/-- ERROR_RATE constant from the source: `0.008_f64`, as an exact rational. -/
def ERROR_RATE : ℚ := 0.008

/-- precision computed by `new`: `(1.04 / error_rate).powi(2).log2().ceil() as usize`,
modelled exactly over `ℚ`; `Int.toNat` models the saturating cast of a
negative `f64` to `usize` as `0`. -/
def derivedB (error_rate : ℚ) : ℕ := (Int.clog 2 ((1.04 / error_rate) ^ 2)).toNat

/-- alpha selection `match` from `new`. -/
def alphaFor (m_counters : ℕ) : ℚ :=
  if m_counters = 16 then 0.673
  else if m_counters = 32 then 0.697
  else if m_counters = 64 then 0.709
  else 0.7213 / (1 + 1.079 / (m_counters : ℚ))

/-- the estimator state `pub struct HyperLogLog`; the `hasher : DefaultHasher`
field is modelled outside the structure, as the pure function passed to `add`. -/
structure HyperLogLog where
  b : ℕ
  m_counters : ℕ
  m : List ℕ
  alpha : ℚ
  deriving DecidableEq

/-- constructor `new` from the source, generalised over the error rate the
source fixes to `ERROR_RATE`. -/
def new (error_rate : ℚ) : Except String HyperLogLog :=
  let b := derivedB error_rate
  let m_counters := 2 ^ b
  if m_counters < 16 then
    .error "error rate too high counters are below 16"
  else
    .ok { b := b, m_counters := m_counters,
          m := List.replicate m_counters 0, alpha := alphaFor m_counters }

/-- size of the `u64` hash space: `hasher.finish()` yields a `u64`. -/
def U64 : ℕ := 2 ^ 64

/-- register index from `add`: `let j = (hash >> (64 - self.b)) as usize`. -/
def register_index (b hash : ℕ) : ℕ := hash / 2 ^ (64 - b)

/-- low bits from `add`: `let estimate_bits = hash & ((1 << (64 - self.b)) - 1)`. -/
def estimate_bits (b hash : ℕ) : ℕ := hash % 2 ^ (64 - b)

/-- bit length of a natural number, written with explicit fuel so that the
kernel can evaluate it; `bitLenAux 64 n` is exact for every `n < 2 ^ 64`. -/
def bitLenAux : ℕ → ℕ → ℕ
  | 0, _ => 0
  | _ + 1, 0 => 0
  | fuel + 1, n + 1 => bitLenAux fuel ((n + 1) / 2) + 1

/-- `u64::leading_zeros`: 64 minus the bit length, counted over the full
64-bit width of the value. -/
def u64_leading_zeros (n : ℕ) : ℕ := 64 - bitLenAux 64 n

/-- rank written by `add`: `estimate_bits.leading_zeros() as u8 + 1` (the
source names it `trailing_zeros`); the `as u8` cast never overflows since
the value is at most 65. -/
def rank (b hash : ℕ) : ℕ := u64_leading_zeros (estimate_bits b hash) + 1

/-- register write from `add`: `self.m[j] = max(self.m[j], r)`; `List.set`
leaves the list unchanged when `j` is out of range, a case that is
unreachable for a well-formed estimator (the source would panic there). -/
def updateMax (l : List ℕ) (j r : ℕ) : List ℕ := l.set j (max (l.getD j 0) r)

/-- `add` from the source, with the hasher modelled as the pure function `h`;
`% U64` models the `u64` result of `hasher.finish()`. -/
def add (h : String → ℕ) (s : HyperLogLog) (data : String) : HyperLogLog :=
  let hash := h data % U64
  { s with m := updateMax s.m (register_index s.b hash) (rank s.b hash) }

/-- register combination loop of `merge`:
`for j in 0..self.m.len() { self.m[j] = max(self.m[j], other.m[j]) }`;
the indexing `other.m[j]` panics (`none`) when `other` has fewer registers
than `self`, and silently ignores the tail of `other` when it has more. -/
def mergeRegs (self other : List ℕ) : Option (List ℕ) :=
  if self.length ≤ other.length then some (List.zipWith max self other) else none

/-- `merge` from the source: `pub fn merge(mut self, other: HyperLogLog)`
consumes `self`, runs the register loop on it, and returns `()`, dropping
the merged state. -/
def merge (self other : HyperLogLog) : Unit :=
  let _merged := mergeRegs self.m other.m
  ()

/-- summand `2.0_f64.powf(-(v as f64))` of the accumulation loop in `count`. -/
noncomputable def z_term (v : ℕ) : ℝ := (2 : ℝ) ^ (-(v : ℝ))

/-- accumulator `z` of the loop in `count`. -/
noncomputable def z_sum (regs : List ℕ) : ℝ := (regs.map z_term).sum

/-- accumulator `empty_counters` of the loop in `count`. -/
def empty_counters (regs : List ℕ) : ℕ := List.countP (· == 0) regs

/-- `range_correction` from the source; the `match` with guards is an
if-chain on the estimate. -/
noncomputable def range_correction (estimate m_counters : ℝ)
    (empty_counters : ℕ) : ℝ :=
  if estimate ≤ 2.5 * m_counters then
    if 0 < empty_counters then
      m_counters * Real.log (m_counters / (empty_counters : ℝ))
    else estimate
  else if estimate ≤ TWO_POW_32 / 30 then estimate
  else -TWO_POW_32 * Real.log (1 - estimate / TWO_POW_32)

/-- raw harmonic-mean estimate from `count`:
`let estimate = self.alpha * m_counters.powi(2) / z`. -/
noncomputable def raw_estimate (s : HyperLogLog) : ℝ :=
  (s.alpha : ℝ) * (s.m_counters : ℝ) ^ 2 / z_sum s.m

/-- `count` from the source; `⌊·⌋₊` models the saturating `as usize` cast of
the corrected `f64` estimate (negative values go to `0`). -/
noncomputable def count (s : HyperLogLog) : ℕ :=
  ⌊range_correction (raw_estimate s) (s.m_counters : ℝ) (empty_counters s.m)⌋₊

/-- `error` from the source: `1.04 / ((1 << self.b) as f64).sqrt()`. -/
noncomputable def error (s : HyperLogLog) : ℝ :=
  1.04 / Real.sqrt ((2 ^ s.b : ℕ) : ℝ)

/-- configuration facts guaranteed by `new` for every estimator it returns;
`b ≤ 64` records that the shifts by `64 - b` in `add` are legal `u64` shifts. -/
def WF (s : HyperLogLog) : Prop :=
  s.m.length = s.m_counters ∧ s.m_counters = 2 ^ s.b ∧
    16 ≤ s.m_counters ∧ s.b ≤ 64

/-- one step of an estimator lifetime: an `add` call, or the register effect
on the receiver of a `merge` (the state of `self.m` after the loop, just
before the source drops it). -/
inductive Op where
  | addData (data : String)
  | mergeWith (other : HyperLogLog)

/-- effect of one operation on the receiver's state; `none` models the panic
of the `merge` loop on an `other` with fewer registers. -/
def applyOp (h : String → ℕ) (s : HyperLogLog) : Op → Option HyperLogLog
  | .addData d => some (add h s d)
  | .mergeWith o => (mergeRegs s.m o.m).map fun regs => { s with m := regs }

/-- a sequence of operations applied in order. -/
def run (h : String → ℕ) : HyperLogLog → List Op → Option HyperLogLog
  | s, [] => some s
  | s, op :: ops =>
    match applyOp h s op with
    | none => none
    | some t => run h t ops

/-- concrete estimator with 16 registers, used to instantiate theorems. -/
def hll16 : HyperLogLog :=
  { b := 4, m_counters := 16, m := List.replicate 16 0, alpha := alphaFor 16 }

/-- concrete estimator with 32 registers, used to instantiate theorems. -/
def hll32 : HyperLogLog :=
  { b := 5, m_counters := 32, m := List.replicate 32 0, alpha := alphaFor 32 }

lemma clog_16900 : Nat.clog 2 16900 = 15 := by
  apply le_antisymm
  · exact (Nat.le_pow_iff_clog_le (by norm_num)).1 (by norm_num)
  · exact (Nat.pow_lt_iff_lt_clog (by norm_num)).1 (by norm_num)

lemma derivedB_ERROR_RATE : derivedB ERROR_RATE = 15 := by
  have h : ((1.04 / ERROR_RATE : ℚ)) ^ 2 = (16900 : ℚ) := by
    norm_num [ERROR_RATE]
  rw [derivedB, h, Int.clog_ofNat, clog_16900]
  rfl

lemma new_ERROR_RATE :
    new ERROR_RATE = .ok { b := 15, m_counters := 32768,
                           m := List.replicate 32768 0,
                           alpha := alphaFor 32768 } := by
  rw [new, derivedB_ERROR_RATE]
  norm_num

/-- C1: the spec says the rank stored by `add` equals the number of leading
zero bits of `w` within the `64 - b`-bit field plus 1, so for `w = 0` and
`b = 15` it should be `64 - 15 + 1 = 50`; the source counts leading zeros
over the full 64-bit width without subtracting `b`, and stores `65`. -/
theorem c1_rank_eval : rank 15 0 = 65 ∧ rank 15 0 ≠ 64 - 15 + 1 := by
  decide

/-- C2: `merge` as written returns `()` for every pair of estimators: the
merged state, computed into the consumed receiver, is dropped and is not
returned to or reachable by the caller. -/
theorem c2_merge_returns_unit : ∀ a b : HyperLogLog, merge a b = () := by
  intro a b
  rfl

/-- C3 counterexample: with error rate `0.008` the constructor yields
`m_counters = 32768`, not the `65536` the claim states. -/
theorem c3_counterexample :
    (new ERROR_RATE).map HyperLogLog.m_counters = .ok 32768 ∧
      (32768 : ℕ) ≠ 65536 := by
  refine ⟨?_, by decide⟩
  rw [new_ERROR_RATE]
  rfl

/-- C3 amended: with error rate `0.008`, `b = ceil(log2((1.04 / 0.008)^2))
= 15` and the register count is `m = 2 ^ 15 = 32768`. -/
theorem c3_m_counters :
    ERROR_RATE = 0.008 ∧ derivedB ERROR_RATE = 15 ∧
      (new ERROR_RATE).map HyperLogLog.m_counters = .ok (2 ^ 15) ∧
      (2 : ℕ) ^ 15 = 32768 := by
  refine ⟨rfl, derivedB_ERROR_RATE, ?_, by decide⟩
  rw [new_ERROR_RATE]
  rfl

/-- C4 counterexample: on two estimators with differing register counts,
`merge` returns `()` and its register loop silently truncates to the
receiver's length, rather than failing with a configuration-mismatch error. -/
theorem c4_counterexample :
    hll16.m_counters ≠ hll32.m_counters ∧ merge hll16 hll32 = () ∧
      mergeRegs hll16.m hll32.m = some (List.replicate 16 0) := by
  refine ⟨by decide, rfl, by decide⟩

/-- C4 amended: `merge` performs no configuration check and cannot signal an
error (it returns `()`); on mismatched register counts its loop silently
truncates to the receiver's length when `other` has at least as many
registers, and panics on an out-of-bounds index when it has fewer.  Such
pairs cannot arise from `new`, whose error rate is the fixed `ERROR_RATE`. -/
theorem c4_merge_no_check (a b : HyperLogLog) :
    merge a b = () ∧
      (a.m.length ≤ b.m.length →
        mergeRegs a.m b.m = some (List.zipWith max a.m b.m)) ∧
      (b.m.length < a.m.length → mergeRegs a.m b.m = none) := by
  refine ⟨rfl, fun h => ?_, fun h => ?_⟩
  · rw [mergeRegs, if_pos h]
  · rw [mergeRegs, if_neg (not_le.2 h)]

lemma length_updateMax (l : List ℕ) (j r : ℕ) :
    (updateMax l j r).length = l.length := by
  simp [updateMax]

lemma getD_le_updateMax (l : List ℕ) (j r k : ℕ) :
    l.getD k 0 ≤ (updateMax l j r).getD k 0 := by
  induction l generalizing j k with
  | nil => simp [updateMax]
  | cons a t ih =>
    cases j with
    | zero =>
      cases k with
      | zero => simp [updateMax]
      | succ k => simp [updateMax]
    | succ j =>
      cases k with
      | zero => simp [updateMax]
      | succ k => simpa [updateMax] using ih j k

lemma getD_le_zipWith_max (l l' : List ℕ) (h : l.length ≤ l'.length) (k : ℕ) :
    l.getD k 0 ≤ (List.zipWith max l l').getD k 0 := by
  induction l generalizing l' k with
  | nil => simp
  | cons a t ih =>
    cases l' with
    | nil => simp at h
    | cons b t' =>
      cases k with
      | zero => simp
      | succ k => simpa using ih t' (by simpa using h) k

lemma applyOp_spec (h : String → ℕ) (s t : HyperLogLog) (op : Op)
    (hst : applyOp h s op = some t) :
    t.m.length = s.m.length ∧ t.m_counters = s.m_counters ∧ t.b = s.b ∧
      ∀ k, s.m.getD k 0 ≤ t.m.getD k 0 := by
  cases op with
  | addData d =>
    obtain rfl : add h s d = t := by simpa [applyOp] using hst
    exact ⟨length_updateMax _ _ _, rfl, rfl, fun k => getD_le_updateMax _ _ _ k⟩
  | mergeWith o =>
    rw [applyOp, Option.map_eq_some'] at hst
    obtain ⟨regs, hregs, rfl⟩ := hst
    rw [mergeRegs] at hregs
    by_cases hle : s.m.length ≤ o.m.length
    · rw [if_pos hle] at hregs
      obtain rfl : List.zipWith max s.m o.m = regs := by simpa using hregs
      refine ⟨?_, rfl, rfl, fun k => getD_le_zipWith_max _ _ hle k⟩
      simpa [List.length_zipWith] using min_eq_left hle
    · rw [if_neg hle] at hregs
      exact absurd hregs (by simp)

lemma run_spec (h : String → ℕ) (ops : List Op) :
    ∀ s s' : HyperLogLog, run h s ops = some s' →
      s'.m.length = s.m.length ∧ s'.m_counters = s.m_counters ∧
        s'.b = s.b ∧ ∀ k, s.m.getD k 0 ≤ s'.m.getD k 0 := by
  induction ops with
  | nil =>
    intro s s' hrun
    obtain rfl : s = s' := by simpa [run] using hrun
    exact ⟨rfl, rfl, rfl, fun k => le_refl _⟩
  | cons op rest ih =>
    intro s s' hrun
    rw [run] at hrun
    cases hop : applyOp h s op with
    | none => rw [hop] at hrun; exact absurd hrun (by simp)
    | some t =>
      rw [hop] at hrun
      obtain ⟨hlen, hmc, hb, hmono⟩ := applyOp_spec h s t op hop
      obtain ⟨hlen', hmc', hb', hmono'⟩ := ih t s' hrun
      exact ⟨hlen'.trans hlen, hmc'.trans hmc, hb'.trans hb,
        fun k => (hmono k).trans (hmono' k)⟩

/-- C6: a well-formed estimator stays well-formed under any sequence of
`add` calls and `merge` register-loop effects that runs without a panic:
the register array keeps its length, the length stays equal to
`m_counters = 2 ^ b`, and no register value ever decreases. -/
theorem c6_invariants (h : String → ℕ) (s s' : HyperLogLog) (ops : List Op)
    (hwf : WF s) (hrun : run h s ops = some s') :
    WF s' ∧ s'.m.length = s.m.length ∧ s'.m_counters = s.m_counters ∧
      s'.m_counters = 2 ^ s'.b ∧ ∀ k, s.m.getD k 0 ≤ s'.m.getD k 0 := by
  obtain ⟨hlen, hmc, hb, hmono⟩ := run_spec h ops s s' hrun
  obtain ⟨w1, w2, w3, w4⟩ := hwf
  refine ⟨⟨?_, ?_, ?_, ?_⟩, hlen, hmc, ?_, hmono⟩
  · rw [hlen, hmc, w1]
  · rw [hmc, hb, w2]
  · rw [hmc]; exact w3
  · rw [hb]; exact w4
  · rw [hmc, hb, w2]

theorem c6_invariants_witness :
    WF hll16 ∧
      run String.length hll16 [Op.addData "a", Op.mergeWith hll32] =
        some { b := 4, m_counters := 16,
               m := 64 :: List.replicate 15 0, alpha := alphaFor 16 } ∧
      (64 :: List.replicate 15 0).length = hll16.m.length ∧
      hll16.m.getD 0 0 ≤ (64 :: List.replicate 15 0).getD 0 0 := by
  have hwf : WF hll16 := ⟨by decide, by decide, by decide, by decide⟩
  have hrun : run String.length hll16 [Op.addData "a", Op.mergeWith hll32] =
      some { b := 4, m_counters := 16,
             m := 64 :: List.replicate 15 0, alpha := alphaFor 16 } := rfl
  have hc := c6_invariants String.length hll16 _ _ hwf hrun
  exact ⟨hwf, hrun, hc.2.1, hc.2.2.2.2 0⟩

lemma updateMax_updateMax_comm (l : List ℕ) (j₁ r₁ j₂ r₂ : ℕ) :
    updateMax (updateMax l j₁ r₁) j₂ r₂ = updateMax (updateMax l j₂ r₂) j₁ r₁ := by
  induction l generalizing j₁ j₂ with
  | nil => simp [updateMax]
  | cons a t ih =>
    cases j₁ with
    | zero =>
      cases j₂ with
      | zero => simp [updateMax, sup_right_comm]
      | succ j₂ => simp [updateMax]
    | succ j₁ =>
      cases j₂ with
      | zero => simp [updateMax]
      | succ j₂ => simpa [updateMax] using ih j₁ j₂

lemma updateMax_updateMax_self (l : List ℕ) (j r : ℕ) :
    updateMax (updateMax l j r) j r = updateMax l j r := by
  induction l generalizing j with
  | nil => simp [updateMax]
  | cons a t ih =>
    cases j with
    | zero => simp [updateMax, max_assoc]
    | succ j => simpa [updateMax] using ih j

lemma add_right_comm_pair (h : String → ℕ) (s : HyperLogLog) (x y : String) :
    add h (add h s x) y = add h (add h s y) x := by
  cases s
  simp only [add, updateMax_updateMax_comm]

lemma add_idem_pair (h : String → ℕ) (s : HyperLogLog) (x : String) :
    add h (add h s x) x = add h s x := by
  cases s
  simp only [add, updateMax_updateMax_self]

/-- C7: `add` is order-independent and idempotent: folding any permutation
of a list of values over a state gives the same final state, and adding the
same value `n ≥ 1` times equals adding it once. -/
theorem c7_add_comm_idem (h : String → ℕ) (s : HyperLogLog) :
    (∀ l₁ l₂ : List String, l₁.Perm l₂ →
        l₁.foldl (add h) s = l₂.foldl (add h) s) ∧
      ∀ (x : String) (n : ℕ), 1 ≤ n →
        (List.replicate n x).foldl (add h) s = add h s x := by
  constructor
  · intro l₁ l₂ hp
    exact hp.foldl_eq' (fun x _ y _ z => add_right_comm_pair h z x y) s
  · intro x n hn
    obtain ⟨k, rfl⟩ : ∃ k, n = k + 1 := ⟨n - 1, by omega⟩
    clear hn
    induction k generalizing s with
    | zero => rfl
    | succ k ih =>
      rw [List.replicate_succ, List.foldl_cons, ih (add h s x),
        add_idem_pair]

theorem c7_add_comm_idem_witness :
    (["a", "bb"].foldl (add String.length) hll16 =
        ["bb", "a"].foldl (add String.length) hll16) ∧
      (List.replicate 3 "a").foldl (add String.length) hll16 =
        add String.length hll16 "a" :=
  ⟨(c7_add_comm_idem String.length hll16).1 ["a", "bb"] ["bb", "a"]
      (List.Perm.swap "bb" "a" []),
   (c7_add_comm_idem String.length hll16).2 "a" 3 (by omega)⟩

theorem c4_merge_no_check_witness :
    mergeRegs hll16.m hll32.m = some (List.zipWith max hll16.m hll32.m) ∧
      mergeRegs hll32.m hll16.m = none :=
  ⟨(c4_merge_no_check hll16 hll32).2.1 (by decide),
   (c4_merge_no_check hll32 hll16).2.2 (by decide)⟩

/-- C5: the three-regime branch structure of `range_correction`, read as the
ordered chain the source's guarded `match` implements. -/
theorem c5_range_correction (E m : ℝ) (empty : ℕ) :
    (E ≤ 2.5 * m → 0 < empty →
        range_correction E m empty = m * Real.log (m / (empty : ℝ))) ∧
      (E ≤ 2.5 * m → empty = 0 → range_correction E m empty = E) ∧
      (2.5 * m < E → E ≤ TWO_POW_32 / 30 → range_correction E m empty = E) ∧
      (2.5 * m < E → TWO_POW_32 / 30 < E →
        range_correction E m empty =
          -TWO_POW_32 * Real.log (1 - E / TWO_POW_32)) := by
  refine ⟨fun h1 h2 => ?_, fun h1 h2 => ?_, fun h1 h2 => ?_, fun h1 h2 => ?_⟩
  · rw [range_correction, if_pos h1, if_pos h2]
  · rw [range_correction, if_pos h1, if_neg (by omega)]
  · rw [range_correction, if_neg (not_le.2 h1), if_pos h2]
  · rw [range_correction, if_neg (not_le.2 h1), if_neg (not_le.2 h2)]

theorem c5_range_correction_witness :
    range_correction 10 16 16 = 16 * Real.log (16 / ((16 : ℕ) : ℝ)) ∧
      range_correction 10 16 0 = 10 ∧
      range_correction 100 16 3 = 100 ∧
      range_correction 4294967296 16 3 =
        -TWO_POW_32 * Real.log (1 - 4294967296 / TWO_POW_32) :=
  ⟨(c5_range_correction 10 16 16).1 (by norm_num) (by norm_num),
   (c5_range_correction 10 16 0).2.1 (by norm_num) rfl,
   (c5_range_correction 100 16 3).2.2.1 (by norm_num)
     (by rw [TWO_POW_32]; norm_num),
   (c5_range_correction 4294967296 16 3).2.2.2 (by norm_num)
     (by rw [TWO_POW_32]; norm_num)⟩

lemma z_sum_replicate_zero (n : ℕ) : z_sum (List.replicate n 0) = n := by
  have h1 : z_term 0 = 1 := by
    simp [z_term]
  simp [z_sum, List.map_replicate, List.sum_replicate, h1]

lemma empty_counters_replicate (n : ℕ) :
    empty_counters (List.replicate n 0) = n := by
  induction n with
  | zero => rfl
  | succ n ih =>
    rw [List.replicate_succ, empty_counters, List.countP_cons]
    rw [empty_counters] at ih
    simp [ih]

lemma alphaFor_le (mc : ℕ) : alphaFor mc ≤ 2.5 := by
  rw [alphaFor]
  have hq : (0 : ℚ) ≤ 1.079 / (mc : ℚ) :=
    div_nonneg (by norm_num) (by positivity)
  split_ifs
  · norm_num
  · norm_num
  · norm_num
  · have hd : (0.7213 : ℚ) / (1 + 1.079 / (mc : ℚ)) ≤ 0.7213 :=
      div_le_self (by norm_num) (by linarith)
    linarith

/-- zeta-reduced form of the constructor, for rewriting. -/
lemma new_eq (e : ℚ) :
    new e = if 2 ^ derivedB e < 16 then
        .error "error rate too high counters are below 16"
      else .ok { b := derivedB e, m_counters := 2 ^ derivedB e,
                 m := List.replicate (2 ^ derivedB e) 0,
                 alpha := alphaFor (2 ^ derivedB e) } := rfl

lemma count_all_zero (bb mC : ℕ) (hmC : 0 < mC) (α : ℚ) (hα : α ≤ 2.5) :
    count { b := bb, m_counters := mC,
            m := List.replicate mC 0, alpha := α } = 0 := by
  have hmR : (0 : ℝ) < (mC : ℝ) := by exact_mod_cast hmC
  have hαR : (α : ℝ) ≤ 2.5 := by
    have h1 : ((2.5 : ℚ) : ℝ) = 2.5 := by norm_num
    calc (α : ℝ) ≤ ((2.5 : ℚ) : ℝ) := Rat.cast_le.mpr hα
    _ = 2.5 := h1
  have hz : z_sum (List.replicate mC 0) = (mC : ℝ) := z_sum_replicate_zero mC
  have hraw : raw_estimate { b := bb, m_counters := mC,
                             m := List.replicate mC 0, alpha := α } =
      (α : ℝ) * (mC : ℝ) := by
    simp only [raw_estimate]
    rw [hz]
    field_simp
    ring
  simp only [count]
  rw [hraw, empty_counters_replicate]
  have hsmall : (α : ℝ) * (mC : ℝ) ≤ 2.5 * (mC : ℝ) :=
    mul_le_mul_of_nonneg_right hαR hmR.le
  rw [range_correction, if_pos hsmall, if_pos hmC, div_self hmR.ne',
    Real.log_one, mul_zero, Nat.floor_zero]

/-- C8: `count` of any estimator returned by `new` to which nothing has been
added is exactly 0: all registers are zero, the raw estimate `alpha * m`
falls in the small range, and with `empty = m` the linear-counting formula
gives `m * ln(m / m) = 0`. -/
theorem c8_count_fresh (e : ℚ) (s : HyperLogLog) (hs : new e = .ok s) :
    count s = 0 := by
  rw [new_eq] at hs
  by_cases hlt : 2 ^ derivedB e < 16
  · rw [if_pos hlt] at hs
    exact absurd hs (by simp)
  · rw [if_neg hlt] at hs
    injection hs with hs
    subst hs
    exact count_all_zero _ _ (by omega) _ (alphaFor_le _)

theorem c8_count_fresh_witness :
    count { b := 15, m_counters := 32768,
            m := List.replicate 32768 0, alpha := alphaFor 32768 } = 0 :=
  c8_count_fresh ERROR_RATE _ new_ERROR_RATE

/-- C9: construction fails (with the invalid-configuration error) exactly
when the derived register count `m = 2 ^ b` is below 16, and has no other
failure mode; otherwise it returns an estimator whose `m` registers are all
zero and whose alpha is 0.673 for m = 16, 0.697 for m = 32, 0.709 for
m = 64, and `0.7213 / (1 + 1.079 / m)` otherwise. -/
theorem c9_new_spec (e : ℚ) :
    ((∃ msg, new e = .error msg) ↔ 2 ^ derivedB e < 16) ∧
      ∀ s, new e = .ok s →
        s.b = derivedB e ∧ s.m_counters = 2 ^ derivedB e ∧
          16 ≤ s.m_counters ∧ s.m = List.replicate s.m_counters 0 ∧
          (s.m_counters = 16 → s.alpha = 0.673) ∧
          (s.m_counters = 32 → s.alpha = 0.697) ∧
          (s.m_counters = 64 → s.alpha = 0.709) ∧
          (s.m_counters ≠ 16 → s.m_counters ≠ 32 → s.m_counters ≠ 64 →
            s.alpha = 0.7213 / (1 + 1.079 / (s.m_counters : ℚ))) := by
  rw [new_eq]
  by_cases hlt : 2 ^ derivedB e < 16
  · rw [if_pos hlt]
    exact ⟨iff_of_true ⟨_, rfl⟩ hlt, fun s hs => absurd hs (by simp)⟩
  · rw [if_neg hlt]
    refine ⟨iff_of_false ?_ hlt, fun s hs => ?_⟩
    · rintro ⟨msg, hmsg⟩
      exact absurd hmsg (by simp)
    · injection hs with hs
      subst hs
      refine ⟨rfl, rfl, not_lt.1 hlt, rfl, fun h => ?_, fun h => ?_,
        fun h => ?_, fun h1 h2 h3 => ?_⟩
      · have h' : 2 ^ derivedB e = 16 := h
        show alphaFor (2 ^ derivedB e) = 0.673
        rw [h']
        rfl
      · have h' : 2 ^ derivedB e = 32 := h
        show alphaFor (2 ^ derivedB e) = 0.697
        rw [h']
        rfl
      · have h' : 2 ^ derivedB e = 64 := h
        show alphaFor (2 ^ derivedB e) = 0.709
        rw [h']
        rfl
      · have h1' : 2 ^ derivedB e ≠ 16 := h1
        have h2' : 2 ^ derivedB e ≠ 32 := h2
        have h3' : 2 ^ derivedB e ≠ 64 := h3
        show alphaFor (2 ^ derivedB e) =
          0.7213 / (1 + 1.079 / ((2 ^ derivedB e : ℕ) : ℚ))
        rw [alphaFor, if_neg h1', if_neg h2', if_neg h3']

theorem c9_new_spec_witness :
    ¬ (2 : ℕ) ^ derivedB ERROR_RATE < 16 ∧
      ({ b := 15, m_counters := 32768, m := List.replicate 32768 0,
         alpha := alphaFor 32768 } : HyperLogLog).alpha =
        0.7213 / (1 + 1.079 / ((32768 : ℕ) : ℚ)) := by
  refine ⟨by rw [derivedB_ERROR_RATE]; decide, ?_⟩
  have h := (c9_new_spec ERROR_RATE).2 _ new_ERROR_RATE
  exact h.2.2.2.2.2.2.2 (by decide) (by decide) (by decide)

/-- C10: on a well-formed estimator and any 64-bit hash, the register index
`hash >> (64 - b)` is in bounds both for `m_counters` and for the register
array, the divisor `z` of `count` is strictly positive, and the square root
in the divisor of `error` is strictly positive: `add`, `count` and `error`
are total. -/
theorem c10_total (s : HyperLogLog) (hash : ℕ) (hwf : WF s)
    (hh : hash < U64) :
    register_index s.b hash < s.m_counters ∧
      register_index s.b hash < s.m.length ∧
      0 < z_sum s.m ∧
      0 < Real.sqrt ((2 ^ s.b : ℕ) : ℝ) := by
  obtain ⟨w1, w2, w3, w4⟩ := hwf
  have hidx : register_index s.b hash < 2 ^ s.b := by
    rw [register_index, Nat.div_lt_iff_lt_mul (pow_pos two_pos _)]
    calc hash < 2 ^ 64 := hh
    _ ≤ 2 ^ s.b * 2 ^ (64 - s.b) := by
        rw [← pow_add]
        exact Nat.pow_le_pow_right (by norm_num) (by omega)
  have hmpos : 0 < s.m.length := by omega
  refine ⟨w2 ▸ hidx, ?_, ?_, ?_⟩
  · rw [w1, w2]
    exact hidx
  · rw [z_sum]
    apply List.sum_pos
    · intro x hx
      obtain ⟨v, _, rfl⟩ := List.mem_map.1 hx
      exact Real.rpow_pos_of_pos (by norm_num) _
    · simpa [List.map_eq_nil_iff] using List.length_pos.1 hmpos
  · apply Real.sqrt_pos.2
    positivity

theorem c10_total_witness :
    register_index hll16.b 123 < hll16.m_counters ∧
      register_index hll16.b 123 < hll16.m.length ∧
      0 < z_sum hll16.m ∧
      0 < Real.sqrt ((2 ^ hll16.b : ℕ) : ℝ) :=
  c10_total hll16 123 ⟨by decide, by decide, by decide, by decide⟩ (by decide)

end HLLVerify
